import Mathlib

/-!
Shallow embedding of the exact fixed-point conversion engine of
`src/src/App.jsx` (the BigInt-based implementation, lines 1-471 of the
file; the later floating-point variant is not the engine the spec
follows).  Strings are modelled as `List Char`, JS BigInt values as
`Int`, non-negative magnitudes as `Nat`.  BigInt `x & ((1n << N) - 1n)`
is the non-negative residue of `x` modulo `2 ^ N` and is modelled with
`Int.emod` / `%` accordingly.
-/

/-- Error results of `parseInputToScaled`; each constructor stands for one
of the error message strings of `src/src/App.jsx`. -/
inductive ParseErr where
  | invalidWidths
  | invalidDecimal
  | tooManyPoints
  | invalidDigit
  | invalidFrac
  deriving DecidableEq

/-- JS `String.prototype.trim` whitespace test, restricted to the ASCII
whitespace characters that can occur in this tool's inputs. -/
def isSpaceChar (c : Char) : Bool :=
  c == ' ' || c == '\t' || c == '\n' || c == '\r'

/-- `str.trim()`: drop whitespace from both ends. -/
def trimChars (s : List Char) : List Char :=
  ((s.dropWhile isSpaceChar).reverse.dropWhile isSpaceChar).reverse

/-- `rmall(str.trim(), underscore)` from `src/src/App.jsx:12-15,37,77`:
trim, then delete every underscore. -/
def stripSeps (s : List Char) : List Char :=
  (trimChars s).filter (fun c => c != '_')

/-- The `charCodeAt(i) - 48` digit test of `parseSignedDecimal`
(`src/src/App.jsx:47-48`): only the characters 0-9. -/
def decDigit? (c : Char) : Option Nat :=
  if '0' ≤ c ∧ c ≤ '9' then some (c.toNat - 48) else none

/-- JS `parseInt(ch, base)` on a single character: its alphanumeric value,
rejected when it is not a valid digit below the base
(`src/src/App.jsx:29-30,87-88`). -/
def digitVal? (c : Char) (base : Nat) : Option Nat :=
  let v? : Option Nat :=
    if '0' ≤ c ∧ c ≤ '9' then some (c.toNat - 48)
    else if 'a' ≤ c ∧ c ≤ 'z' then some (c.toNat - 87)
    else if 'A' ≤ c ∧ c ≤ 'Z' then some (c.toNat - 55)
    else none
  match v? with
  | some v => if v < base then some v else none
  | none => none

/-- The digit-accumulation loop of `parseFractionalInBase`
(`src/src/App.jsx:28-32`). -/
def parseFracLoop (base : Nat) : List Char → Nat → Option Nat
  | [], acc => some acc
  | c :: rest, acc =>
    match digitVal? c base with
    | some v => parseFracLoop base rest (acc * base + v)
    | none => none

/-- `src/src/App.jsx:23-34` `parseFractionalInBase`. -/
def parseFractionalInBase (strFrac : List Char) (base : Nat) : Option (Nat × Nat) :=
  if strFrac = [] then some (0, 1)
  else
    match parseFracLoop base strFrac 0 with
    | some num => some (num, base ^ strFrac.length)
    | none => none

/-- The integer-part loop of `parseSignedDecimal`
(`src/src/App.jsx:44-51`): accumulate decimal digits up to the first
dot (or the end); any other character is an error. -/
def parseIntLoop : List Char → Nat → Option (Nat × List Char)
  | [], acc => some (acc, [])
  | c :: rest, acc =>
    if c = '.' then some (acc, c :: rest)
    else
      match decDigit? c with
      | some d => parseIntLoop rest (acc * 10 + d)
      | none => none

/-- `src/src/App.jsx:36-59` `parseSignedDecimal`; the BigInt sign `±1n` is
modelled as a `Bool` (`true` = negative), magnitudes as `Nat`.
Returns `(negative, intPart, num, den)`. -/
def parseSignedDecimal (str : List Char) : Option (Bool × Nat × Nat × Nat) :=
  let s := stripSeps str
  if s = [] then none
  else
    let signAndT : Bool × List Char :=
      match s with
      | '+' :: rest => (false, rest)
      | '-' :: rest => (true, rest)
      | _ => (false, s)
    match parseIntLoop signAndT.2 0 with
    | none => none
    | some (intPart, rest) =>
      match rest with
      | '.' :: fracChars =>
        match parseFractionalInBase fracChars 10 with
        | none => none
        | some (num, den) => some (signAndT.1, intPart, num, den)
      | _ => some (signAndT.1, intPart, 0, 1)

/-- The integer-part loop of the non-decimal branch of
`parseInputToScaled` (`src/src/App.jsx:85-90`). -/
def parseIntInBase (base : Nat) : List Char → Nat → Option Nat
  | [], acc => some acc
  | c :: rest, acc =>
    match digitVal? c base with
    | some v => parseIntInBase base rest (acc * base + v)
    | none => none

/-- The input-to-exact-rational part of `parseInputToScaled`
(`src/src/App.jsx:66-96`): produces `(negative, rationalNum, rationalDen)`
with `rationalNum / rationalDen` the non-negative magnitude. -/
def parseRational (valueStr : List Char) (base : Nat) : Except ParseErr (Bool × Nat × Nat) :=
  if base = 10 then
    match parseSignedDecimal valueStr with
    | none => .error .invalidDecimal
    | some (neg, intPart, num, den) => .ok (neg, intPart * den + num, den)
  else
    let s := stripSeps valueStr
    let signAndS : Bool × List Char :=
      match s with
      | '-' :: rest => (true, rest)
      | '+' :: rest => (false, rest)
      | _ => (false, s)
    let parts := signAndS.2.splitOn '.'
    if parts.length > 2 then .error .tooManyPoints
    else
      let ip := parts.headD []
      let fp := parts.getD 1 []
      match parseIntInBase base ip 0 with
      | none => .error .invalidDigit
      | some intVal =>
        match parseFractionalInBase fp base with
        | none => .error .invalidFrac
        | some (num, den) => .ok (signAndS.1, intVal * den + num, den)

/-- `src/src/App.jsx:98-102`: the scaled magnitude
`round((num/den) * 2^fracBits)` with round-half-up on the magnitude;
BigInt division of non-negative operands is `Nat` division. -/
def roundHalfUp (p q n : Nat) : Nat :=
  let t := p * 2 ^ n
  let s := t / q
  if t % q * 2 ≥ q then s + 1 else s

/-- `src/src/App.jsx:104`: re-apply the sign to the rounded magnitude. -/
def candidateScaled (neg : Bool) (p q n : Nat) : Int :=
  if neg then -(roundHalfUp p q n : Int) else (roundHalfUp p q n : Int)

/-- `src/src/App.jsx:107-114`: lower bound of the representable scaled
range (callers guarantee `N ≥ 1`). -/
def minScaled (signed : Bool) (N : Nat) : Int :=
  if signed then -((2 : Int) ^ (N - 1)) else 0

/-- `src/src/App.jsx:107-114`: upper bound of the representable scaled
range. -/
def maxScaled (signed : Bool) (N : Nat) : Int :=
  if signed then (2 : Int) ^ (N - 1) - 1 else (2 : Int) ^ N - 1

/-- `src/src/App.jsx:61-119` `parseInputToScaled`: full pipeline from the
input string to the saturated scaled integer plus overflow flag. -/
def parseInputToScaled (valueStr : List Char) (base : Nat) (signed : Bool) (intBits fracBits : Int) : Except ParseErr (Int × Bool) :=
  let N : Int := (if signed then 1 else 0) + intBits + fracBits
  if N ≤ 0 ∨ intBits < 0 ∨ fracBits < 0 then .error .invalidWidths
  else
    match parseRational valueStr base with
    | .error e => .error e
    | .ok (neg, num, den) =>
      let scaled := candidateScaled neg num den fracBits.toNat
      let Nn := N.toNat
      let mn := minScaled signed Nn
      let mx := maxScaled signed Nn
      let overflow := decide (scaled < mn) || decide (scaled > mx)
      let scaled' := if scaled < mn then mn else if scaled > mx then mx else scaled
      .ok (scaled', overflow)

/-- Encode: the `twos` two's-complement representative computation repeated
at `src/src/App.jsx:125-128`, `140-143`, `191-192` and `314-316`; the
BigInt `& mask` of the negative branch is the residue modulo `2 ^ N`. -/
def toBits (scaled : Int) (N : Nat) (signed : Bool) : Nat :=
  ((if signed ∧ scaled < 0 then scaled + 2 ^ N else scaled) % (2 ^ N)).toNat

/-- Decode: `src/src/App.jsx:321`; the truthiness test of
`twosNew & (1n << (N-1))` decides whether to subtract `2 ^ N`. -/
def fromBits (u : Nat) (N : Nat) (signed : Bool) : Int :=
  if signed ∧ u &&& 2 ^ (N - 1) ≠ 0 then (u : Int) - 2 ^ N else (u : Int)

/-- `src/src/App.jsx:312-321`: the click branch of `handleCanvasEvent`;
toggle bit `idx` (0 = most significant). -/
def toggleBit (scaled : Int) (N : Nat) (signed : Bool) (idx : Nat) : Int :=
  let twos := toBits scaled N signed
  let twosNew := (twos ^^^ 2 ^ (N - 1 - idx)) % 2 ^ N
  fromBits twosNew N signed

/-- Digit character of `BigInt.prototype.toString`; digits above 9 already
uppercased as after `.toUpperCase()` (`src/src/App.jsx:144`). -/
def digitCharU (d : Nat) : Char :=
  if d < 10 then Char.ofNat (48 + d) else Char.ofNat (55 + d)

/-- Base-`b` digit list of `x`, most significant first; fuel-recursive
mirror of `BigInt.prototype.toString(b)` for positive `x`. -/
def natDigitsFuel (b : Nat) : Nat → Nat → List Nat
  | 0, _ => []
  | fuel + 1, x => if x = 0 then [] else natDigitsFuel b fuel (x / b) ++ [x % b]

/-- `x.toString(b)` for a non-negative BigInt `x`. -/
def natToChars (b x : Nat) : List Char :=
  if x = 0 then ['0'] else (natDigitsFuel b x x).map digitCharU

/-- JS `padStart(w, c)`. -/
def padStart (w : Nat) (c : Char) (s : List Char) : List Char :=
  List.replicate (w - s.length) c ++ s

/-- `src/src/App.jsx:17-21` `bigintToBinary`. -/
def bigintToBinary (v : Int) (width : Nat) : List Char :=
  padStart width '0' (natToChars 2 ((v % ((2 : Int) ^ width)).toNat))

/-- `src/src/App.jsx:121-135` `binaryWithPointFromScaled`. -/
def binaryWithPointFromScaled (scaled : Int) (totalBits fracBits : Nat) (signed : Bool) : List Char :=
  let twos : Int := if signed ∧ scaled < 0 then (scaled + 2 ^ totalBits) % (2 ^ totalBits) else scaled
  let bits := bigintToBinary twos totalBits
  if fracBits = 0 then bits
  else
    let cut := bits.length - fracBits
    let intPart := if bits.take cut = [] then ['0'] else bits.take cut
    intPart ++ '.' :: bits.drop cut

/-- `src/src/App.jsx:137-145` `hexFromScaled`; in-range inputs make the
`twos` value non-negative, matching `toString(16)` on a non-negative
BigInt. -/
def hexFromScaled (scaled : Int) (totalBits : Nat) (signed : Bool) : List Char :=
  let twos : Int := if signed ∧ scaled < 0 then (scaled + 2 ^ totalBits) % (2 ^ totalBits) else scaled
  padStart ((totalBits + 3) / 4) '0' (natToChars 16 twos.toNat)

/-- `src/src/App.jsx:147-160` `scaledToDecimalString`. -/
def scaledToDecimalString (scaled : Int) (fracBits : Nat) (precision : Int) : List Char :=
  let signStr : List Char := if scaled < 0 then ['-'] else []
  let abs := scaled.natAbs
  let intPart := abs >>> fracBits
  let frac := abs &&& (2 ^ fracBits - 1)
  if precision ≤ 0 ∨ fracBits = 0 then signStr ++ natToChars 10 intPart
  else
    let tenPow := 10 ^ precision.toNat
    let fracDec := (frac * tenPow + 2 ^ (fracBits - 1)) >>> fracBits
    signStr ++ natToChars 10 intPart ++ '.' :: padStart precision.toNat '0' (natToChars 10 fracDec)

/-- The global regex replace of `src/src/App.jsx:266`: append a space after
every complete 4-character chunk, scanning left to right (the source
then trims the possible trailing space). -/
def groupLeft4 : List Char → List Char
  | a :: b :: c :: d :: rest => a :: b :: c :: d :: ' ' :: groupLeft4 rest
  | s => s

/-- `src/src/App.jsx:259-267`: the `twosPattern` memo (error case
excluded). -/
def twosPattern (scaled : Int) (signed : Bool) (totalBits : Nat) (group4 : Bool) : List Char :=
  let v : Int := if signed ∧ scaled < 0 then (scaled + 2 ^ totalBits) % (2 ^ totalBits) else scaled
  let plain := bigintToBinary v totalBits
  if group4 then trimChars (groupLeft4 plain) else plain

/-- The single regex replace of `src/src/App.jsx:165`: drop leading zeros
as long as another digit follows. -/
def stripZeros : List Char → List Char
  | '0' :: c :: rest => if c.isDigit then stripZeros (c :: rest) else '0' :: c :: rest
  | s => s

/-- The grouping loop of `src/src/App.jsx:172-175`: emit separator plus the
next 4 characters, repeatedly (the caller arranges that the remaining
length is a multiple of 4). -/
def sepChunks : List Char → List Char
  | [] => []
  | a :: b :: c :: d :: rest => '_' :: a :: b :: c :: d :: sepChunks rest
  | short => '_' :: short

/-- `src/src/App.jsx:162-177` `formatGrouped` with its default group size 4
and underscore separator. -/
def formatGrouped (bits : List Char) : List Char :=
  let s := stripZeros bits
  if s = [] then ['0']
  else if s.length ≤ 4 then s
  else
    let i0 := s.length % 4
    let i := if i0 = 0 then 4 else i0
    s.take i ++ sepChunks (s.drop i)

/-- Spec-side description (wording of claim C9): the digit string cut into
4-character chunks from the left. -/
def chunks4 : List Char → List (List Char)
  | a :: b :: c :: d :: e :: rest => [a, b, c, d] :: chunks4 (e :: rest)
  | s => [s]

/-- Spec-side description (wording of claim C9): chunks joined with a
single separator between them, never before the first digit. -/
def joinSp : List (List Char) → List Char
  | [] => []
  | [l] => l
  | l :: ls => l ++ ' ' :: joinSp ls

/-- Spec-side description (wording of claim C9): group the integer segment
and the fractional segment independently, never crossing the radix
point. -/
def segmentedGroup4 (intSeg fracSeg : List Char) : List Char :=
  joinSp (chunks4 intSeg) ++ joinSp (chunks4 fracSeg)

deriving instance DecidableEq for Except

/-! ## Helper lemmas for the bit codec -/

/-- For a positive width, the top-bit weight doubles to the full range. -/
theorem pow_pred_double (N : Nat) (hN : 1 ≤ N) : 2 ^ (N - 1) * 2 = 2 ^ N := by
  rw [← pow_succ]
  congr 1
  omega

/-- Integer version of `pow_pred_double`. -/
theorem pow_pred_double_int (N : Nat) (hN : 1 ≤ N) : (2 : Int) ^ (N - 1) * 2 = (2 : Int) ^ N := by
  rw [← pow_succ]
  congr 1
  omega

/-- An encoded pattern is always below `2 ^ N`. -/
theorem toBits_lt (scaled : Int) (N : Nat) (signed : Bool) : toBits scaled N signed < 2 ^ N := by
  have h2 : (0 : Int) < 2 ^ N := by positivity
  have hcast : ((2 ^ N : Nat) : Int) = (2 : Int) ^ N := by push_cast; ring
  unfold toBits
  have hlt := Int.emod_lt_of_pos (if signed ∧ scaled < 0 then scaled + 2 ^ N else scaled) h2
  have hge := Int.emod_nonneg (if signed ∧ scaled < 0 then scaled + 2 ^ N else scaled) (ne_of_gt h2)
  omega


/-- Unfolded form of `minScaled` for a signed format. -/
theorem minScaled_true (N : Nat) : minScaled true N = -((2 : Int) ^ (N - 1)) := by
  simp [minScaled]

/-- Unfolded form of `minScaled` for an unsigned format. -/
theorem minScaled_false (N : Nat) : minScaled false N = 0 := by
  simp [minScaled]

/-- Unfolded form of `maxScaled` for a signed format. -/
theorem maxScaled_true (N : Nat) : maxScaled true N = (2 : Int) ^ (N - 1) - 1 := by
  simp [maxScaled]

/-- Unfolded form of `maxScaled` for an unsigned format. -/
theorem maxScaled_false (N : Nat) : maxScaled false N = (2 : Int) ^ N - 1 := by
  simp [maxScaled]

/-- The truthiness test `u &&& 2^(N-1) ≠ 0` of the source detects exactly
the patterns whose unsigned value reaches the top-bit weight. -/
theorem msb_and_iff (u N : Nat) (hN : 1 ≤ N) (hu : u < 2 ^ N) :
    u &&& 2 ^ (N - 1) ≠ 0 ↔ 2 ^ (N - 1) ≤ u := by
  have hdouble : 2 ^ (N - 1) * 2 = 2 ^ N := pow_pred_double N hN
  have hpos : 0 < 2 ^ (N - 1) := Nat.two_pow_pos _
  have hdiv : u / 2 ^ (N - 1) = if 2 ^ (N - 1) ≤ u then 1 else 0 := by
    by_cases hle : 2 ^ (N - 1) ≤ u
    · rw [if_pos hle]
      exact Nat.div_eq_of_lt_le (by omega) (by omega)
    · rw [if_neg hle]
      exact Nat.div_eq_of_lt (by omega)
  rw [Nat.and_two_pow, Nat.testBit_to_div_mod, hdiv]
  by_cases hle : 2 ^ (N - 1) ≤ u
  · simp [hle]
  · simp [hle]

/-- Decoding then re-encoding reproduces any `N`-bit pattern. -/
theorem toBits_fromBits_eq (u N : Nat) (signed : Bool) (hu : u < 2 ^ N) :
    toBits (fromBits u N signed) N signed = u := by
  have h2 : (0 : Int) < 2 ^ N := by positivity
  have hcast : ((2 ^ N : Nat) : Int) = (2 : Int) ^ N := by push_cast; ring
  unfold fromBits toBits
  by_cases hc : (signed = true) ∧ u &&& 2 ^ (N - 1) ≠ 0
  · rw [if_pos hc]
    have hneg : (u : Int) - 2 ^ N < 0 := by omega
    rw [if_pos ⟨hc.1, hneg⟩]
    have harith : (u : Int) - 2 ^ N + 2 ^ N = (u : Int) := by ring
    rw [harith, Int.emod_eq_of_lt (by omega) (by omega)]
    omega
  · rw [if_neg hc]
    have hnn : ¬ ((signed = true) ∧ (u : Int) < 0) := by
      intro hx
      omega
    rw [if_neg hnn, Int.emod_eq_of_lt (by omega) (by omega)]
    omega

/-- Encoding an in-range scaled value and decoding the pattern returns the
original scaled value. -/
theorem fromBits_toBits_eq (signed : Bool) (N : Nat) (hN : 1 ≤ N) (scaled : Int)
    (hlo : minScaled signed N ≤ scaled) (hhi : scaled ≤ maxScaled signed N) :
    fromBits (toBits scaled N signed) N signed = scaled := by
  have h2 : (0 : Int) < 2 ^ N := by positivity
  have hcast : ((2 ^ N : Nat) : Int) = (2 : Int) ^ N := by push_cast; ring
  have hcast1 : ((2 ^ (N - 1) : Nat) : Int) = (2 : Int) ^ (N - 1) := by push_cast; ring
  have hdouble : (2 : Int) ^ (N - 1) * 2 = (2 : Int) ^ N := pow_pred_double_int N hN
  cases signed with
  | false =>
    rw [minScaled_false] at hlo
    rw [maxScaled_false] at hhi
    unfold toBits fromBits
    simp only [Bool.false_eq_true, false_and, if_false]
    rw [Int.emod_eq_of_lt hlo (by omega)]
    omega
  | true =>
    rw [minScaled_true] at hlo
    rw [maxScaled_true] at hhi
    by_cases hneg : scaled < 0
    · have hs : toBits scaled N true = (scaled + 2 ^ N).toNat := by
        unfold toBits
        rw [if_pos ⟨rfl, hneg⟩, Int.emod_eq_of_lt (by omega) (by omega)]
      rw [hs]
      unfold fromBits
      have hub : (scaled + 2 ^ N).toNat < 2 ^ N := by omega
      have hlb : 2 ^ (N - 1) ≤ (scaled + 2 ^ N).toNat := by omega
      rw [if_pos ⟨rfl, (msb_and_iff _ N hN hub).mpr hlb⟩]
      omega
    · have hs : toBits scaled N true = scaled.toNat := by
        unfold toBits
        rw [if_neg (by intro hx; exact hneg hx.2), Int.emod_eq_of_lt (by omega) (by omega)]
      rw [hs]
      unfold fromBits
      have hub : scaled.toNat < 2 ^ N := by omega
      have hlt : scaled.toNat < 2 ^ (N - 1) := by omega
      rw [if_neg (by intro hx; have := (msb_and_iff _ N hN hub).mp hx.2; omega)]
      omega

/-- Any decoded `N`-bit pattern lies inside the representable range. -/
theorem fromBits_in_range (u N : Nat) (signed : Bool) (hN : 1 ≤ N) (hu : u < 2 ^ N) :
    minScaled signed N ≤ fromBits u N signed ∧ fromBits u N signed ≤ maxScaled signed N := by
  have hcast : ((2 ^ N : Nat) : Int) = (2 : Int) ^ N := by push_cast; ring
  have hcast1 : ((2 ^ (N - 1) : Nat) : Int) = (2 : Int) ^ (N - 1) := by push_cast; ring
  have hdouble : (2 : Int) ^ (N - 1) * 2 = (2 : Int) ^ N := pow_pred_double_int N hN
  have hpos : (0 : Int) < 2 ^ (N - 1) := by positivity
  unfold fromBits
  by_cases hc : (signed = true) ∧ u &&& 2 ^ (N - 1) ≠ 0
  · rw [if_pos hc, hc.1, minScaled_true, maxScaled_true]
    have hge := (msb_and_iff u N hN hu).mp hc.2
    omega
  · rw [if_neg hc]
    cases signed with
    | false =>
      rw [minScaled_false, maxScaled_false]
      omega
    | true =>
      rw [minScaled_true, maxScaled_true]
      have hmsb : ¬ u &&& 2 ^ (N - 1) ≠ 0 := fun hx => hc ⟨rfl, hx⟩
      have hlt : u < 2 ^ (N - 1) := by
        by_contra hcon
        exact hmsb ((msb_and_iff u N hN hu).mpr (by omega))
      omega

/-! ## Claim C1 -/

/-- C1: for every format with `totalBits ≥ 1` and every scaled integer in
`[min, max]`, the encoder maps a negative scaled value (signed format) to
`scaled + 2^totalBits` and a non-negative one to itself as the unsigned
pattern value, and decoding that pattern (subtracting `2^totalBits` when
the format is signed and the MSB is set) yields the original value. -/
theorem c1_encode_decode_roundtrip (signed : Bool) (N : Nat) (hN : 1 ≤ N) (scaled : Int)
    (hlo : minScaled signed N ≤ scaled) (hhi : scaled ≤ maxScaled signed N) :
    toBits scaled N signed = (if signed ∧ scaled < 0 then scaled + 2 ^ N else scaled).toNat ∧
    fromBits (toBits scaled N signed) N signed = scaled := by
  have h2 : (0 : Int) < 2 ^ N := by positivity
  have hdouble : (2 : Int) ^ (N - 1) * 2 = (2 : Int) ^ N := pow_pred_double_int N hN
  have hpos : (0 : Int) < 2 ^ (N - 1) := by positivity
  constructor
  · unfold toBits
    congr 1
    apply Int.emod_eq_of_lt
    · by_cases hc : (signed = true) ∧ scaled < 0
      · rw [if_pos hc]
        rw [hc.1, minScaled_true] at hlo
        omega
      · rw [if_neg hc]
        cases signed with
        | false =>
          rw [minScaled_false] at hlo
          exact hlo
        | true =>
          have hnn : ¬ scaled < 0 := fun hx => hc ⟨rfl, hx⟩
          omega
    · by_cases hc : (signed = true) ∧ scaled < 0
      · rw [if_pos hc]
        omega
      · rw [if_neg hc]
        cases signed with
        | false =>
          rw [maxScaled_false] at hhi
          omega
        | true =>
          rw [maxScaled_true] at hhi
          omega
  · exact fromBits_toBits_eq signed N hN scaled hlo hhi

/-- Witness for C1 at the Q1.3 signed format and scaled value -6. -/
theorem c1_encode_decode_roundtrip_witness :
    (1 ≤ 5 ∧ minScaled true 5 ≤ -6 ∧ (-6 : Int) ≤ maxScaled true 5) ∧
    fromBits (toBits (-6) 5 true) 5 true = -6 :=
  ⟨⟨by decide, by decide, by decide⟩,
    (c1_encode_decode_roundtrip true 5 (by decide) (-6) (by decide) (by decide)).2⟩

/-! ## Claims C7 and C8 -/

/-- C7: toggling the same bit twice returns the original scaled value, for
every format with `totalBits ≥ 1`, every in-range scaled value and every
bit index below `totalBits` (0 = most significant). -/
theorem c7_toggle_self_inverse (signed : Bool) (N : Nat) (hN : 1 ≤ N) (idx : Nat) (_hidx : idx < N)
    (x : Int) (hlo : minScaled signed N ≤ x) (hhi : x ≤ maxScaled signed N) :
    toggleBit (toggleBit x N signed idx) N signed idx = x := by
  have hu : toBits x N signed < 2 ^ N := toBits_lt x N signed
  have hble : (2 : Nat) ^ (N - 1 - idx) ≤ 2 ^ (N - 1) := Nat.pow_le_pow_right (by norm_num) (by omega)
  have hdouble : (2 : Nat) ^ (N - 1) * 2 = 2 ^ N := pow_pred_double N hN
  have hposb : 0 < (2 : Nat) ^ (N - 1) := Nat.two_pow_pos _
  have hb : (2 : Nat) ^ (N - 1 - idx) < 2 ^ N := by omega
  have hxor : toBits x N signed ^^^ 2 ^ (N - 1 - idx) < 2 ^ N := Nat.xor_lt_two_pow hu hb
  simp only [toggleBit]
  rw [Nat.mod_eq_of_lt hxor, toBits_fromBits_eq _ N signed hxor, Nat.xor_cancel_right,
    Nat.mod_eq_of_lt hu]
  exact fromBits_toBits_eq signed N hN x hlo hhi

/-- Witness for C7 at the Q1.3 signed format, scaled value -6, index 0. -/
theorem c7_toggle_self_inverse_witness :
    (1 ≤ 5 ∧ 0 < 5 ∧ minScaled true 5 ≤ -6 ∧ (-6 : Int) ≤ maxScaled true 5) ∧
    toggleBit (toggleBit (-6) 5 true 0) 5 true 0 = -6 :=
  ⟨⟨by decide, by decide, by decide, by decide⟩,
    c7_toggle_self_inverse true 5 (by decide) 0 (by decide) (-6) (by decide) (by decide)⟩

/-- C8: for every format with `totalBits ≥ 1`, every in-range scaled value
and every bit index below `totalBits`, the toggle operation (encode, XOR
the targeted bit, decode) is total and lands inside `[min, max]` again,
with no saturation step in its definition. -/
theorem c8_toggle_in_range (signed : Bool) (N : Nat) (hN : 1 ≤ N) (idx : Nat) (_hidx : idx < N)
    (x : Int) (_hlo : minScaled signed N ≤ x) (_hhi : x ≤ maxScaled signed N) :
    minScaled signed N ≤ toggleBit x N signed idx ∧
    toggleBit x N signed idx ≤ maxScaled signed N := by
  have hu : toBits x N signed < 2 ^ N := toBits_lt x N signed
  have hble : (2 : Nat) ^ (N - 1 - idx) ≤ 2 ^ (N - 1) := Nat.pow_le_pow_right (by norm_num) (by omega)
  have hdouble : (2 : Nat) ^ (N - 1) * 2 = 2 ^ N := pow_pred_double N hN
  have hposb : 0 < (2 : Nat) ^ (N - 1) := Nat.two_pow_pos _
  have hb : (2 : Nat) ^ (N - 1 - idx) < 2 ^ N := by omega
  have hxor : toBits x N signed ^^^ 2 ^ (N - 1 - idx) < 2 ^ N := Nat.xor_lt_two_pow hu hb
  simp only [toggleBit]
  rw [Nat.mod_eq_of_lt hxor]
  exact fromBits_in_range _ N signed hN hxor

/-- Witness for C8 at the Q1.3 signed format, scaled value -6, index 0. -/
theorem c8_toggle_in_range_witness :
    (1 ≤ 5 ∧ 0 < 5 ∧ minScaled true 5 ≤ -6 ∧ (-6 : Int) ≤ maxScaled true 5) ∧
    minScaled true 5 ≤ toggleBit (-6) 5 true 0 ∧ toggleBit (-6) 5 true 0 ≤ maxScaled true 5 :=
  ⟨⟨by decide, by decide, by decide, by decide⟩,
    c8_toggle_in_range true 5 (by decide) 0 (by decide) (-6) (by decide) (by decide)⟩

/-! ## Helper lemmas for the quantizer -/

/-- In a valid format the bounds are ordered. -/
theorem minScaled_le_maxScaled (signed : Bool) (N : Nat) (_hN : 1 ≤ N) :
    minScaled signed N ≤ maxScaled signed N := by
  have hpos : (0 : Int) < 2 ^ (N - 1) := by positivity
  have hposN : (0 : Int) < 2 ^ N := by positivity
  cases signed with
  | false =>
    rw [minScaled_false, maxScaled_false]
    omega
  | true =>
    rw [minScaled_true, maxScaled_true]
    omega

/-- In a valid format zero is representable. -/
theorem zero_in_range (signed : Bool) (N : Nat) (_hN : 1 ≤ N) :
    minScaled signed N ≤ 0 ∧ (0 : Int) ≤ maxScaled signed N := by
  have hpos : (0 : Int) < 2 ^ (N - 1) := by positivity
  have hposN : (0 : Int) < 2 ^ N := by positivity
  cases signed with
  | false =>
    rw [minScaled_false, maxScaled_false]
    omega
  | true =>
    rw [minScaled_true, maxScaled_true]
    omega

/-- Shape of `parseInputToScaled` on a valid format once the rational parse
succeeded: the saturation step of `src/src/App.jsx:115-118`. -/
theorem parseInputToScaled_eq_of_ok (valueStr : List Char) (base : Nat) (signed : Bool)
    (m n : Int) (neg : Bool) (p q : Nat)
    (hvalid : ¬ (((if signed then 1 else 0) + m + n) ≤ 0 ∨ m < 0 ∨ n < 0))
    (hp : parseRational valueStr base = .ok (neg, p, q)) :
    parseInputToScaled valueStr base signed m n =
      .ok (if candidateScaled neg p q n.toNat <
              minScaled signed ((if signed then 1 else 0) + m + n).toNat then
             minScaled signed ((if signed then 1 else 0) + m + n).toNat
           else if candidateScaled neg p q n.toNat >
              maxScaled signed ((if signed then 1 else 0) + m + n).toNat then
             maxScaled signed ((if signed then 1 else 0) + m + n).toNat
           else candidateScaled neg p q n.toNat,
           decide (candidateScaled neg p q n.toNat <
              minScaled signed ((if signed then 1 else 0) + m + n).toNat) ||
           decide (candidateScaled neg p q n.toNat >
              maxScaled signed ((if signed then 1 else 0) + m + n).toNat)) := by
  unfold parseInputToScaled
  rw [if_neg hvalid, hp]

/-- A successful single-character `parseInt` yields a digit below the base. -/
theorem digitVal?_lt (c : Char) (base v : Nat) (h : digitVal? c base = some v) : v < base := by
  dsimp only [digitVal?] at h
  split at h
  · split at h
    · injection h with hv
      omega
    · exact absurd h (by simp)
  · exact absurd h (by simp)

/-- A fractional digit loop that consumes at least one character forces a
positive base. -/
theorem parseFracLoop_base_pos (base : Nat) (c : Char) (rest : List Char) (acc x : Nat)
    (h : parseFracLoop base (c :: rest) acc = some x) : 0 < base := by
  cases hd : digitVal? c base with
  | none =>
    simp only [parseFracLoop, hd] at h
    exact Option.noConfusion h
  | some v =>
    have := digitVal?_lt c base v hd
    omega

/-- The denominator produced by `parseFractionalInBase` is positive. -/
theorem parseFractionalInBase_den_pos (strFrac : List Char) (base : Nat) (num den : Nat)
    (h : parseFractionalInBase strFrac base = some (num, den)) : 0 < den := by
  unfold parseFractionalInBase at h
  by_cases he : strFrac = []
  · rw [if_pos he] at h
    simp only [Option.some.injEq, Prod.mk.injEq] at h
    omega
  · rw [if_neg he] at h
    cases hl : parseFracLoop base strFrac 0 with
    | none =>
      rw [hl] at h
      simp at h
    | some num' =>
      rw [hl] at h
      simp only [Option.some.injEq, Prod.mk.injEq] at h
      obtain ⟨h1, h2⟩ := h
      obtain ⟨c, rest, hcr⟩ : ∃ c rest, strFrac = c :: rest := by
        cases strFrac with
        | nil => exact absurd rfl he
        | cons c rest => exact ⟨c, rest, rfl⟩
      subst hcr
      have hb := parseFracLoop_base_pos base c rest 0 num' hl
      rw [← h2]
      exact Nat.pos_pow_of_pos _ hb

/-- The denominator produced by `parseSignedDecimal` is positive. -/
theorem parseSignedDecimal_den_pos (str : List Char) (neg : Bool) (i num den : Nat)
    (h : parseSignedDecimal str = some (neg, i, num, den)) : 0 < den := by
  unfold parseSignedDecimal at h
  simp only [] at h
  split at h
  · exact absurd h (by simp)
  · split at h
    · exact absurd h (by simp)
    · split at h
      · split at h
        · exact absurd h (by simp)
        · rename_i num2 den2 hfrac
          have hd2 := parseFractionalInBase_den_pos _ 10 num2 den2 hfrac
          simp only [Option.some.injEq, Prod.mk.injEq] at h
          obtain ⟨-, -, -, hden⟩ := h
          omega
      · simp only [Option.some.injEq, Prod.mk.injEq] at h
        obtain ⟨-, -, -, hden⟩ := h
        omega

/-- The denominator produced by `parseRational` is positive. -/
theorem parseRational_den_pos (valueStr : List Char) (base : Nat) (neg : Bool) (p q : Nat)
    (h : parseRational valueStr base = .ok (neg, p, q)) : 0 < q := by
  unfold parseRational at h
  simp only [] at h
  split at h
  · split at h
    · exact absurd h (by simp)
    · rename_i neg2 intPart2 num2 den2 heq
      simp only [Except.ok.injEq, Prod.mk.injEq] at h
      obtain ⟨-, -, hden⟩ := h
      have := parseSignedDecimal_den_pos valueStr neg2 intPart2 num2 den2 heq
      omega
  · split at h
    · exact absurd h (by simp)
    · split at h
      · exact absurd h (by simp)
      · split at h
        · exact absurd h (by simp)
        · rename_i num2 den2 hfrac
          simp only [Except.ok.injEq, Prod.mk.injEq] at h
          obtain ⟨-, -, hden⟩ := h
          have := parseFractionalInBase_den_pos _ base num2 den2 hfrac
          omega

/-! ## Claim C2 -/

/-- C2: for every valid format and every successfully parsed input, a
candidate scaled integer above `max` saturates to `(max, overflow=true)`,
one below `min` to `(min, overflow=true)`, and an in-range candidate is
returned unchanged with `overflow=false`; a parsed out-of-range input is
never reported as an error.  The witness instantiates the scenario
`signed, m=0, n=8`, input `1.0`, base 10, giving scaled 255 and
overflow true. -/
theorem c2_saturation (valueStr : List Char) (base : Nat) (signed : Bool)
    (m n : Int) (hm : 0 ≤ m) (hn : 0 ≤ n)
    (hN : 0 < (if signed then 1 else 0) + m + n)
    (neg : Bool) (p q : Nat) (hp : parseRational valueStr base = .ok (neg, p, q)) :
    (maxScaled signed ((if signed then 1 else 0) + m + n).toNat < candidateScaled neg p q n.toNat →
      parseInputToScaled valueStr base signed m n =
        .ok (maxScaled signed ((if signed then 1 else 0) + m + n).toNat, true)) ∧
    (candidateScaled neg p q n.toNat < minScaled signed ((if signed then 1 else 0) + m + n).toNat →
      parseInputToScaled valueStr base signed m n =
        .ok (minScaled signed ((if signed then 1 else 0) + m + n).toNat, true)) ∧
    (minScaled signed ((if signed then 1 else 0) + m + n).toNat ≤ candidateScaled neg p q n.toNat →
     candidateScaled neg p q n.toNat ≤ maxScaled signed ((if signed then 1 else 0) + m + n).toNat →
      parseInputToScaled valueStr base signed m n =
        .ok (candidateScaled neg p q n.toNat, false)) := by
  have hvalid : ¬ (((if signed then 1 else 0) + m + n) ≤ 0 ∨ m < 0 ∨ n < 0) := by omega
  have hN1 : 1 ≤ ((if signed then 1 else 0) + m + n).toNat := by omega
  have hmm := minScaled_le_maxScaled signed ((if signed then 1 else 0) + m + n).toNat hN1
  have hshape := parseInputToScaled_eq_of_ok valueStr base signed m n neg p q hvalid hp
  refine ⟨?_, ?_, ?_⟩
  · intro hgt
    rw [hshape]
    have h1 : ¬ (candidateScaled neg p q n.toNat <
        minScaled signed ((if signed then 1 else 0) + m + n).toNat) := by omega
    simp [h1, hgt]
  · intro hlt
    rw [hshape]
    simp [hlt]
  · intro hge hle
    rw [hshape]
    have h1 : ¬ (candidateScaled neg p q n.toNat <
        minScaled signed ((if signed then 1 else 0) + m + n).toNat) := by omega
    have h2 : ¬ (candidateScaled neg p q n.toNat >
        maxScaled signed ((if signed then 1 else 0) + m + n).toNat) := by omega
    simp [h1, h2]

/-- Witness for C2: the concrete scenario `signed=true, m=0, n=8`, input
string `1.0` in base 10 saturates to scaled 255 with overflow true. -/
theorem c2_saturation_witness :
    (parseRational ['1', '.', '0'] 10 = .ok (false, 10, 10) ∧
     maxScaled true ((if (true : Bool) then 1 else 0) + (0 : Int) + 8).toNat <
       candidateScaled false 10 10 (8 : Int).toNat) ∧
    parseInputToScaled ['1', '.', '0'] 10 true 0 8 = .ok (255, true) := by
  refine ⟨⟨by decide, by decide⟩, ?_⟩
  have h := (c2_saturation ['1', '.', '0'] 10 true 0 8 (by decide) (by decide) (by decide)
    false 10 10 (by decide)).1 (by decide)
  rw [h]
  decide

/-! ## Claim C3 -/

/-- C3: for every successfully parsed input with exact non-negative
magnitude `p/q` (the denominator is positive), the pre-saturation scaled
magnitude equals `floor(p * 2^n / q)` plus one exactly when
`2 * ((p * 2^n) mod q) ≥ q` (round half away from zero on the magnitude),
and the parsed sign is then re-applied.  The witness instantiates the
magnitude 0.75 with n = 1, whose scaled magnitude is 2, not 1. -/
theorem c3_round_half_away (valueStr : List Char) (base : Nat) (neg : Bool) (p q n : Nat)
    (hp : parseRational valueStr base = .ok (neg, p, q)) :
    0 < q ∧
    roundHalfUp p q n = p * 2 ^ n / q + (if 2 * (p * 2 ^ n % q) ≥ q then 1 else 0) ∧
    candidateScaled neg p q n = (if neg then -1 else 1) * (roundHalfUp p q n : Int) := by
  refine ⟨parseRational_den_pos valueStr base neg p q hp, ?_, ?_⟩
  · unfold roundHalfUp
    by_cases hc : p * 2 ^ n % q * 2 ≥ q
    · rw [if_pos hc, if_pos (by omega)]
    · rw [if_neg hc, if_neg (by omega)]
      omega
  · unfold candidateScaled
    by_cases hneg : neg = true
    · rw [if_pos hneg, if_pos hneg]
      ring
    · rw [if_neg hneg, if_neg hneg]
      ring

/-- Witness for C3: parsing `0.75` in base 10 gives magnitude 75/100, and
with n = 1 the rounded scaled magnitude is 2 (half away from zero). -/
theorem c3_round_half_away_witness :
    parseRational ['0', '.', '7', '5'] 10 = .ok (false, 75, 100) ∧
    roundHalfUp 75 100 1 = 2 := by
  refine ⟨by decide, ?_⟩
  have h := (c3_round_half_away ['0', '.', '7', '5'] 10 false 75 100 1 (by decide)).2.1
  rw [h]
  decide

/-! ## Claim C4 -/

/-- Shape of `parseInputToScaled` on a valid format when the rational
parse fails. -/
theorem parseInputToScaled_eq_of_err (valueStr : List Char) (base : Nat) (signed : Bool)
    (m n : Int) (e : ParseErr)
    (hvalid : ¬ (((if signed then 1 else 0) + m + n) ≤ 0 ∨ m < 0 ∨ n < 0))
    (hp : parseRational valueStr base = .error e) :
    parseInputToScaled valueStr base signed m n = .error e := by
  unfold parseInputToScaled
  rw [if_neg hvalid, hp]

/-- On a non-decimal base, a string that strips to empty parses as the
rational 0/1 with a positive sign flag cleared. -/
theorem parseRational_of_empty (valueStr : List Char) (base : Nat) (hb : base ≠ 10)
    (hs : stripSeps valueStr = []) : parseRational valueStr base = .ok (false, 0, 1) := by
  unfold parseRational
  rw [if_neg hb]
  simp only []
  rw [hs]
  rfl

/-- A parsed magnitude of zero quantizes to the scaled value 0. -/
theorem candidateScaled_of_zero_num (neg : Bool) (q k : Nat) (hq : 0 < q) :
    candidateScaled neg 0 q k = 0 := by
  have hcond : ¬ (0 * 2 ^ k % q * 2 ≥ q) := by
    have h0 : 0 * 2 ^ k % q = 0 := by simp
    omega
  unfold candidateScaled roundHalfUp
  rw [if_neg hcond]
  simp

/-- A parse result with zero numerator converts to scaled 0 without
overflow on any valid format. -/
theorem parseInputToScaled_zero_of_ok (s : List Char) (base : Nat) (signed : Bool) (m n : Int)
    (hm : 0 ≤ m) (hn : 0 ≤ n) (hN : 0 < (if signed then 1 else 0) + m + n)
    (neg : Bool) (q : Nat) (hp : parseRational s base = .ok (neg, 0, q)) :
    parseInputToScaled s base signed m n = .ok (0, false) := by
  have hvalid : ¬ (((if signed then 1 else 0) + m + n) ≤ 0 ∨ m < 0 ∨ n < 0) := by omega
  have hN1 : 1 ≤ ((if signed then 1 else 0) + m + n).toNat := by omega
  have hq := parseRational_den_pos s base neg 0 q hp
  have hcand := candidateScaled_of_zero_num neg q n.toNat hq
  have hz := zero_in_range signed ((if signed then 1 else 0) + m + n).toNat hN1
  rw [parseInputToScaled_eq_of_ok s base signed m n neg 0 q hvalid hp, hcand]
  have h1 : ¬ ((0 : Int) < minScaled signed ((if signed then 1 else 0) + m + n).toNat) := by
    omega
  have h2 : ¬ ((0 : Int) > maxScaled signed ((if signed then 1 else 0) + m + n).toNat) := by
    omega
  simp [h1, h2]

/-- Counterexample to C4 as stated: with base 2 (and likewise 16), parsing
the empty string does not return a parse error; it succeeds with scaled 0
and overflow false.  Only the base-10 path rejects the empty string. -/
theorem c4_empty_input_counterexample :
    parseInputToScaled [] 2 true 1 3 = .ok (0, false) ∧
    parseInputToScaled [] 16 true 1 3 = .ok (0, false) := by
  exact ⟨by decide, by decide⟩

/-- C4 (amended): on a valid format, a string that is empty after
stripping whitespace and separators yields a parse error for base 10,
but for any other base (in particular 2 and 16) it is accepted and
converts to scaled 0 with overflow false. -/
theorem c4_empty_input_amended (s : List Char) (base : Nat) (signed : Bool) (m n : Int)
    (hm : 0 ≤ m) (hn : 0 ≤ n) (hN : 0 < (if signed then 1 else 0) + m + n)
    (hs : stripSeps s = []) :
    (base = 10 → parseInputToScaled s base signed m n = .error .invalidDecimal) ∧
    (base ≠ 10 → parseInputToScaled s base signed m n = .ok (0, false)) := by
  have hvalid : ¬ (((if signed then 1 else 0) + m + n) ≤ 0 ∨ m < 0 ∨ n < 0) := by omega
  constructor
  · intro hb
    subst hb
    have hnone : parseSignedDecimal s = none := by
      unfold parseSignedDecimal
      simp only []
      rw [hs]
      simp
    have hrp : parseRational s 10 = .error .invalidDecimal := by
      unfold parseRational
      rw [if_pos rfl, hnone]
    exact parseInputToScaled_eq_of_err s 10 signed m n .invalidDecimal hvalid hrp
  · intro hb
    exact parseInputToScaled_zero_of_ok s base signed m n hm hn hN false 1
      (parseRational_of_empty s base hb hs)

/-- Witness for the amended C4 at the Q1.3 signed format: the empty string
errors in base 10 and parses as zero in base 2. -/
theorem c4_empty_input_amended_witness :
    (stripSeps [] = [] ∧ (2 : Nat) ≠ 10) ∧
    parseInputToScaled [] 10 true 1 3 = .error .invalidDecimal ∧
    parseInputToScaled [] 2 true 1 3 = .ok (0, false) := by
  refine ⟨⟨by decide, by decide⟩, ?_, ?_⟩
  · exact (c4_empty_input_amended [] 10 true 1 3 (by decide) (by decide) (by decide)
      (by decide)).1 rfl
  · exact (c4_empty_input_amended [] 2 true 1 3 (by decide) (by decide) (by decide)
      (by decide)).2 (by decide)

/-! ## Claim C10 -/

/-- C10: for bases 2, 10 and 16 on a valid format, a non-empty input made
of a sign and/or a single radix point but no digits at all (one of the
strings "-", "+", ".", "-.", "+.") is accepted by the parser and converts
to scaled 0 with overflow false rather than producing an error. -/
theorem c10_sign_dot_only (s : List Char) (base : Nat) (signed : Bool) (m n : Int)
    (hm : 0 ≤ m) (hn : 0 ≤ n) (hN : 0 < (if signed then 1 else 0) + m + n)
    (hb : base = 2 ∨ base = 10 ∨ base = 16)
    (hs : s = ['-'] ∨ s = ['+'] ∨ s = ['.'] ∨ s = ['-', '.'] ∨ s = ['+', '.']) :
    parseInputToScaled s base signed m n = .ok (0, false) := by
  rcases hb with hb | hb | hb <;> subst hb <;>
      rcases hs with hs | hs | hs | hs | hs <;> subst hs <;>
      first
      | exact parseInputToScaled_zero_of_ok _ _ signed m n hm hn hN true 1 (by decide)
      | exact parseInputToScaled_zero_of_ok _ _ signed m n hm hn hN false 1 (by decide)

/-- Witness for C10: the bare minus sign in base 2 on the Q1.3 signed
format parses to scaled 0 with no overflow. -/
theorem c10_sign_dot_only_witness :
    ((0 : Int) ≤ 1 ∧ (0 : Int) ≤ 3 ∧ ((2 : Nat) = 2 ∨ (2 : Nat) = 10 ∨ (2 : Nat) = 16)) ∧
    parseInputToScaled ['-'] 2 true 1 3 = .ok (0, false) :=
  ⟨⟨by decide, by decide, Or.inl rfl⟩,
    c10_sign_dot_only ['-'] 2 true 1 3 (by decide) (by decide) (by decide) (Or.inl rfl)
      (Or.inl rfl)⟩

/-! ## Claim C5 -/

/-- Counterexample to C5 as stated: parsing `-0.75` in the signed Q1.3
format (totalBits 5) does give scaled -6, but the binary-with-point text
is not `1.1010`: the code places the radix point `n = 3` positions from
the right of the 5-bit pattern `11010`. -/
theorem c5_scenario_counterexample :
    parseInputToScaled ['-', '0', '.', '7', '5'] 10 true 1 3 = .ok (-6, false) ∧
    binaryWithPointFromScaled (-6) 5 3 true ≠ ['1', '.', '1', '0', '1', '0'] := by
  exact ⟨by decide, by decide⟩

/-- C5 (amended): with `signed=true, m=1, n=3` (totalBits 5), input `-0.75`
in base 10 converts to scaled -6 with overflow false, two's-complement
bit pattern `11010`, binary-with-point text `11.010`, and hex text `1A`
for the raw pattern. -/
theorem c5_scenario_amended :
    parseInputToScaled ['-', '0', '.', '7', '5'] 10 true 1 3 = .ok (-6, false) ∧
    twosPattern (-6) true 5 false = ['1', '1', '0', '1', '0'] ∧
    binaryWithPointFromScaled (-6) 5 3 true = ['1', '1', '.', '0', '1', '0'] ∧
    hexFromScaled (-6) 5 true = ['1', 'A'] := by
  exact ⟨by decide, by decide, by decide, by decide⟩

/-! ## Claim C6 -/

/-- Digit lists from the fuel evaluator are short when the value is below
the corresponding power of the base. -/
theorem natDigitsFuel_length_le (b : Nat) (hb : 2 ≤ b) :
    ∀ fuel x k, x ≤ fuel → x < b ^ k → (natDigitsFuel b fuel x).length ≤ k := by
  intro fuel
  induction fuel with
  | zero =>
    intro x k hx hxk
    simp [natDigitsFuel]
  | succ fuel ih =>
    intro x k hx hxk
    unfold natDigitsFuel
    by_cases hz : x = 0
    · rw [if_pos hz]
      simp
    · rw [if_neg hz]
      cases k with
      | zero =>
        simp at hxk
        omega
      | succ k2 =>
        have hdiv : x / b < b ^ k2 := by
          rw [Nat.div_lt_iff_lt_mul (by omega)]
          calc x < b ^ (k2 + 1) := hxk
          _ = b ^ k2 * b := by rw [pow_succ]
        have hfuel : x / b ≤ fuel := by
          have := Nat.div_lt_self (by omega : 0 < x) (by omega : 1 < b)
          omega
        have hlen := ih (x / b) k2 hfuel hdiv
        simp only [List.length_append, List.length_cons, List.length_nil]
        omega

/-- The numeral of a value below `b ^ k` has at most `k` characters. -/
theorem natToChars_length_le (b x k : Nat) (hb : 2 ≤ b) (hk : 1 ≤ k) (hx : x < b ^ k) :
    (natToChars b x).length ≤ k := by
  unfold natToChars
  by_cases hz : x = 0
  · rw [if_pos hz]
    simpa using hk
  · rw [if_neg hz, List.length_map]
    exact natDigitsFuel_length_le b hb x x k (le_refl x) hx

/-- Padding a short string to width `w` yields exactly `w` characters. -/
theorem padStart_length (w : Nat) (c : Char) (s : List Char) (h : s.length ≤ w) :
    (padStart w c s).length = w := by
  unfold padStart
  rw [List.length_append, List.length_replicate]
  omega

/-- Counterexample to C6 as stated: at `scaled = 31, n = 5, p = 1` the
fractional remainder 31/32 rounds up to 10 tenths, so the rendered text
is `0.10` with two fractional digits, not exactly `p = 1` digits (the
whole string has length 4 where the claim dictates length 3). -/
theorem c6_decimal_digits_counterexample :
    scaledToDecimalString 31 5 1 = ['0', '.', '1', '0'] ∧
    (scaledToDecimalString 31 5 1).length ≠ 3 := by
  exact ⟨by decide, by decide⟩

/-- C6 (amended): (i) for `n > 0` and `1 ≤ p ≤ 18`, the decimal output is
the sign, the numeral of `|scaled| / 2^n`, a point, and the numeral of
the round-to-nearest value `(|scaled| mod 2^n * 10^p + 2^(n-1)) / 2^n`
zero-padded to `p` digits; (ii) that fractional field has exactly `p`
digits provided the rounding bias cannot carry past `p` digits, i.e.
when `2^(n-1) < 10^p` (the counterexample shows `p+1` digits otherwise);
(iii) when `p ≤ 0` or `n = 0` the point and the fractional segment are
omitted entirely. -/
theorem c6_decimal_string_amended (scaled : Int) (n : Nat) (p : Int) :
    (0 < n → 1 ≤ p → p ≤ 18 →
      scaledToDecimalString scaled n p =
        (if scaled < 0 then ['-'] else []) ++ natToChars 10 (scaled.natAbs / 2 ^ n) ++
          '.' :: padStart p.toNat '0'
            (natToChars 10 ((scaled.natAbs % 2 ^ n * 10 ^ p.toNat + 2 ^ (n - 1)) / 2 ^ n))) ∧
    (0 < n → 1 ≤ p → p ≤ 18 → 2 ^ (n - 1) < 10 ^ p.toNat →
      (padStart p.toNat '0'
          (natToChars 10 ((scaled.natAbs % 2 ^ n * 10 ^ p.toNat + 2 ^ (n - 1)) / 2 ^ n))).length
        = p.toNat) ∧
    (p ≤ 0 ∨ n = 0 →
      scaledToDecimalString scaled n p =
        (if scaled < 0 then ['-'] else []) ++ natToChars 10 (scaled.natAbs / 2 ^ n)) := by
  refine ⟨?_, ?_, ?_⟩
  · intro hn hp1 _hp18
    have hcond : ¬ (p ≤ 0 ∨ n = 0) := by omega
    unfold scaledToDecimalString
    rw [if_neg hcond]
    simp only [Nat.shiftRight_eq_div_pow, Nat.and_pow_two_sub_one_eq_mod]
  · intro hn hp1 _hp18 hnc
    have hfd_lt : (scaled.natAbs % 2 ^ n * 10 ^ p.toNat + 2 ^ (n - 1)) / 2 ^ n < 10 ^ p.toNat := by
      rw [Nat.div_lt_iff_lt_mul (Nat.two_pow_pos n)]
      have hfrac_lt : scaled.natAbs % 2 ^ n < 2 ^ n := Nat.mod_lt _ (Nat.two_pow_pos n)
      have h1 : scaled.natAbs % 2 ^ n * 10 ^ p.toNat ≤ (2 ^ n - 1) * 10 ^ p.toNat :=
        Nat.mul_le_mul_right _ (by omega)
      have h2 : (2 ^ n - 1) * 10 ^ p.toNat + 10 ^ p.toNat = 2 ^ n * 10 ^ p.toNat := by
        rw [Nat.sub_mul, one_mul]
        have h3 : 10 ^ p.toNat ≤ 2 ^ n * 10 ^ p.toNat :=
          Nat.le_mul_of_pos_left _ (Nat.two_pow_pos n)
        omega
      have h4 : 10 ^ p.toNat * 2 ^ n = 2 ^ n * 10 ^ p.toNat := by ring
      omega
    exact padStart_length _ _ _ (natToChars_length_le 10 _ p.toNat (by norm_num) (by omega) hfd_lt)
  · intro hcond
    unfold scaledToDecimalString
    rw [if_pos hcond]
    simp only [Nat.shiftRight_eq_div_pow]

/-- Witness for the amended C6 at `scaled = -6, n = 3`: with `p = 1`
(value -0.75) the output is `-0.8` with one fractional digit, and with
`p = 0` the point and fractional segment are omitted, giving `-0`. -/
theorem c6_decimal_string_amended_witness :
    ((0 : Nat) < 3 ∧ (1 : Int) ≤ 1 ∧ (1 : Int) ≤ 18 ∧ 2 ^ (3 - 1) < 10 ^ (1 : Int).toNat ∧
      ((0 : Int) ≤ 0 ∨ (3 : Nat) = 0)) ∧
    scaledToDecimalString (-6) 3 1 = ['-', '0', '.', '8'] ∧
    (padStart (1 : Int).toNat '0'
        (natToChars 10 (((-6 : Int).natAbs % 2 ^ 3 * 10 ^ (1 : Int).toNat + 2 ^ (3 - 1)) /
          2 ^ 3))).length = (1 : Int).toNat ∧
    scaledToDecimalString (-6) 3 0 = ['-', '0'] := by
  refine ⟨⟨by decide, by decide, by decide, by decide, Or.inl (by decide)⟩, ?_, ?_, ?_⟩
  · have h := (c6_decimal_string_amended (-6) 3 1).1 (by decide) (by decide) (by decide)
    rw [h]
    decide
  · exact (c6_decimal_string_amended (-6) 3 1).2.1 (by decide) (by decide) (by decide)
      (by decide)
  · have h := (c6_decimal_string_amended (-6) 3 0).2.2 (Or.inl (by decide))
    rw [h]
    decide


/-! ## Claim C9 -/

/-- Drop trailing whitespace only (the second half of `trim`). -/
def dropTrailingSpace (l : List Char) : List Char :=
  (l.reverse.dropWhile isSpaceChar).reverse

/-- A `dropWhile` over elements that all fail the predicate is the
identity. -/
theorem dropWhile_of_all_false (p : Char → Bool) (l : List Char)
    (h : ∀ c ∈ l, p c = false) : l.dropWhile p = l := by
  cases l with
  | nil => rfl
  | cons x xs =>
    rw [List.dropWhile_cons]
    simp [h x (by simp)]

/-- Dropping trailing whitespace from a whitespace-free string is the
identity. -/
theorem dropTrailingSpace_of_no_space (l : List Char)
    (h : ∀ c ∈ l, isSpaceChar c = false) : dropTrailingSpace l = l := by
  unfold dropTrailingSpace
  rw [dropWhile_of_all_false _ _ (by intro c hc; exact h c (List.mem_reverse.mp hc))]
  exact List.reverse_reverse l

/-- A single trailing space is removed. -/
theorem dropTrailingSpace_append_space (l : List Char) :
    dropTrailingSpace (l ++ [' ']) = dropTrailingSpace l := by
  unfold dropTrailingSpace
  rw [List.reverse_append]
  rw [show ([' '] : List Char).reverse = [' '] from rfl]
  rw [show ([' '] : List Char) ++ l.reverse = ' ' :: l.reverse from rfl]
  rw [List.dropWhile_cons]
  simp [isSpaceChar]

/-- Trailing-space removal distributes over an append whose right part
does not vanish. -/
theorem dropTrailingSpace_append_of_ne (l1 l2 : List Char)
    (h : dropTrailingSpace l2 ≠ []) :
    dropTrailingSpace (l1 ++ l2) = l1 ++ dropTrailingSpace l2 := by
  unfold dropTrailingSpace at h ⊢
  rw [List.reverse_append, List.dropWhile_append]
  have hne : ¬ (l2.reverse.dropWhile isSpaceChar).isEmpty = true := by
    intro hx
    rw [List.isEmpty_iff] at hx
    rw [hx] at h
    exact h rfl
  rw [if_neg hne, List.reverse_append, List.reverse_reverse]

/-- Trimming a string with a non-whitespace head only drops trailing
whitespace. -/
theorem trimChars_of_head_no_space (x : Char) (l : List Char)
    (hx : isSpaceChar x = false) :
    trimChars (x :: l) = dropTrailingSpace (x :: l) := by
  unfold trimChars dropTrailingSpace
  rw [List.dropWhile_cons]
  simp [hx]

/-- The grouping pass keeps the first character in place. -/
theorem groupLeft4_cons_head (x : Char) (xs : List Char) :
    ∃ t, groupLeft4 (x :: xs) = x :: t := by
  rcases xs with _ | ⟨b, _ | ⟨c, _ | ⟨d, rest⟩⟩⟩
  · exact ⟨[], rfl⟩
  · exact ⟨[b], rfl⟩
  · exact ⟨[b, c], rfl⟩
  · exact ⟨b :: c :: d :: ' ' :: groupLeft4 rest, rfl⟩

/-- The first chunk of a non-empty string starts with its head. -/
theorem chunks4_cons_head (x : Char) (xs : List Char) :
    ∃ ch tl, chunks4 (x :: xs) = (x :: ch) :: tl := by
  rcases xs with _ | ⟨b, _ | ⟨c, _ | ⟨d, _ | ⟨e, rest⟩⟩⟩⟩
  · exact ⟨[], [], rfl⟩
  · exact ⟨[b], [], rfl⟩
  · exact ⟨[b, c], [], rfl⟩
  · exact ⟨[b, c, d], [], rfl⟩
  · exact ⟨[b, c, d], chunks4 (e :: rest), rfl⟩

/-- Joining at least two chunks inserts one separator after the first. -/
theorem joinSp_cons_cons (l ch : List Char) (tl : List (List Char)) :
    joinSp (l :: ch :: tl) = l ++ ' ' :: joinSp (ch :: tl) := rfl

/-- Core C9 computation: on a whitespace-free string, the regex grouping
followed by `trim` equals the chunks-of-4 rendering. -/
theorem dropTrailingSpace_groupLeft4 : ∀ (s : List Char),
    (∀ c ∈ s, isSpaceChar c = false) →
    dropTrailingSpace (groupLeft4 s) = joinSp (chunks4 s)
  | [], _ => rfl
  | [a], h => dropTrailingSpace_of_no_space [a] h
  | [a, b], h => dropTrailingSpace_of_no_space [a, b] h
  | [a, b, c], h => dropTrailingSpace_of_no_space [a, b, c] h
  | [a, b, c, d], h => by
    show dropTrailingSpace ([a, b, c, d] ++ [' ']) = [a, b, c, d]
    rw [dropTrailingSpace_append_space]
    exact dropTrailingSpace_of_no_space [a, b, c, d] h
  | a :: b :: c :: d :: e :: rest, h => by
    have hrec := dropTrailingSpace_groupLeft4 (e :: rest)
      (fun ch hc => h ch (by simp only [List.mem_cons] at hc ⊢; tauto))
    obtain ⟨ch0, tl0, hch⟩ := chunks4_cons_head e rest
    have hne : joinSp (chunks4 (e :: rest)) ≠ [] := by
      rw [hch]
      cases tl0 with
      | nil => simp [joinSp]
      | cons t ts => simp [joinSp_cons_cons]
    have hGne : dropTrailingSpace (groupLeft4 (e :: rest)) ≠ [] := by
      rw [hrec]
      exact hne
    show dropTrailingSpace ([a, b, c, d, ' '] ++ groupLeft4 (e :: rest)) =
      joinSp ([a, b, c, d] :: chunks4 (e :: rest))
    rw [dropTrailingSpace_append_of_ne _ _ hGne, hrec, hch, joinSp_cons_cons]
    rfl

/-- Source-vs-spec equality for the grouped pattern text. -/
theorem trim_groupLeft4 (s : List Char) (hns : ∀ c ∈ s, isSpaceChar c = false) :
    trimChars (groupLeft4 s) = joinSp (chunks4 s) := by
  cases s with
  | nil => rfl
  | cons x xs =>
    have hx : isSpaceChar x = false := hns x (by simp)
    obtain ⟨t, ht⟩ := groupLeft4_cons_head x xs
    rw [ht, trimChars_of_head_no_space x t hx, ← ht]
    exact dropTrailingSpace_groupLeft4 (x :: xs) hns

/-- Removing the separators of the chunked rendering restores the digit
string. -/
theorem filter_joinSp_chunks4 : ∀ (s : List Char),
    (∀ c ∈ s, isSpaceChar c = false) →
    List.filter (fun c => c != ' ') (joinSp (chunks4 s)) = s
  | [], _ => rfl
  | [a], h => by
    refine List.filter_eq_self.mpr ?_
    intro c hc
    have := h c hc
    simp only [bne_iff_ne, ne_eq]
    intro he
    subst he
    simp [isSpaceChar] at this
  | [a, b], h => by
    refine List.filter_eq_self.mpr ?_
    intro c hc
    have := h c hc
    simp only [bne_iff_ne, ne_eq]
    intro he
    subst he
    simp [isSpaceChar] at this
  | [a, b, c], h => by
    refine List.filter_eq_self.mpr ?_
    intro c hc
    have := h c hc
    simp only [bne_iff_ne, ne_eq]
    intro he
    subst he
    simp [isSpaceChar] at this
  | [a, b, c, d], h => by
    refine List.filter_eq_self.mpr ?_
    intro c hc
    have := h c hc
    simp only [bne_iff_ne, ne_eq]
    intro he
    subst he
    simp [isSpaceChar] at this
  | a :: b :: c :: d :: e :: rest, h => by
    have hrec := filter_joinSp_chunks4 (e :: rest)
      (fun ch hc => h ch (by simp only [List.mem_cons] at hc ⊢; tauto))
    obtain ⟨ch0, tl0, hch⟩ := chunks4_cons_head e rest
    show List.filter (fun c => c != ' ') (joinSp ([a, b, c, d] :: chunks4 (e :: rest))) = _
    rw [hch, joinSp_cons_cons, ← hch, List.filter_append]
    have habcd : List.filter (fun ch => ch != ' ') [a, b, c, d] = [a, b, c, d] := by
      refine List.filter_eq_self.mpr ?_
      intro ch hc
      have := h ch (by simp only [List.mem_cons] at hc ⊢; tauto)
      simp only [bne_iff_ne, ne_eq]
      intro he
      subst he
      simp [isSpaceChar] at this
    rw [habcd]
    have hsp : List.filter (fun ch => ch != ' ') (' ' :: joinSp (chunks4 (e :: rest))) =
        List.filter (fun ch => ch != ' ') (joinSp (chunks4 (e :: rest))) := by
      rw [List.filter_cons]
      simp
    rw [hsp, hrec]
    rfl

/-- Every digit emitted by the fuel evaluator is below the base. -/
theorem natDigitsFuel_mem_lt (b : Nat) (hb : 0 < b) :
    ∀ fuel x d, d ∈ natDigitsFuel b fuel x → d < b := by
  intro fuel
  induction fuel with
  | zero =>
    intro x d hd
    simp [natDigitsFuel] at hd
  | succ fuel ih =>
    intro x d hd
    unfold natDigitsFuel at hd
    by_cases hz : x = 0
    · rw [if_pos hz] at hd
      simp at hd
    · rw [if_neg hz] at hd
      rw [List.mem_append] at hd
      rcases hd with hd | hd
      · exact ih (x / b) d hd
      · simp at hd
        subst hd
        exact Nat.mod_lt x hb

/-- The binary rendering of a pattern contains no whitespace. -/
theorem bigintToBinary_no_space (v : Int) (w : Nat) :
    ∀ c ∈ bigintToBinary v w, isSpaceChar c = false := by
  intro c hc
  unfold bigintToBinary padStart at hc
  rw [List.mem_append] at hc
  rcases hc with hc | hc
  · rw [List.eq_of_mem_replicate hc]
    decide
  · unfold natToChars at hc
    by_cases hz : (v % ((2 : Int) ^ w)).toNat = 0
    · rw [if_pos hz] at hc
      simp at hc
      subst hc
      decide
    · rw [if_neg hz] at hc
      rw [List.mem_map] at hc
      obtain ⟨d, hd, hdc⟩ := hc
      have hlt : d < 2 := natDigitsFuel_mem_lt 2 (by norm_num) _ _ d hd
      subst hdc
      interval_cases d <;> decide

/-- Counterexample to C9 as stated: for signed Q1.3 and scaled -6 the raw
pattern is `11010` with a 2-bit integer segment and a 3-bit fractional
segment, so grouping counted independently inside each segment inserts no
separator at all; the program instead inserts a space after the fourth
bit, inside the fractional segment.  Moreover the `formatGrouped` helper
is not the identity up to separators: it strips leading zeros. -/
theorem c9_grouping_counterexample :
    twosPattern (-6) true 5 true = ['1', '1', '0', '1', ' ', '0'] ∧
    segmentedGroup4 ['1', '1'] ['0', '1', '0'] = ['1', '1', '0', '1', '0'] ∧
    twosPattern (-6) true 5 true ≠ segmentedGroup4 ['1', '1'] ['0', '1', '0'] ∧
    List.filter (fun c => c != '_') (formatGrouped ['0', '0', '1', '0', '1']) ≠
      ['0', '0', '1', '0', '1'] := by
  exact ⟨by decide, by decide, by decide, by decide⟩

/-- C9 (amended): with grouping enabled, the displayed two's-complement
pattern is the ungrouped pattern unchanged except for a space inserted
after every 4 bits counted from the left of the whole point-free pattern
(not per integer/fractional segment), never before the first digit;
removing the separators restores the ungrouped pattern exactly. -/
theorem c9_grouping_amended (scaled : Int) (signed : Bool) (N : Nat) :
    twosPattern scaled signed N true = joinSp (chunks4 (twosPattern scaled signed N false)) ∧
    List.filter (fun c => c != ' ') (twosPattern scaled signed N true) =
      twosPattern scaled signed N false := by
  have hfalse : twosPattern scaled signed N false =
      bigintToBinary
        (if signed ∧ scaled < 0 then (scaled + 2 ^ N) % ((2 : Int) ^ N) else scaled) N := rfl
  have htrue : twosPattern scaled signed N true =
      trimChars (groupLeft4 (bigintToBinary
        (if signed ∧ scaled < 0 then (scaled + 2 ^ N) % ((2 : Int) ^ N) else scaled) N)) := rfl
  have hns := bigintToBinary_no_space
    (if signed ∧ scaled < 0 then (scaled + 2 ^ N) % ((2 : Int) ^ N) else scaled) N
  constructor
  · rw [htrue, hfalse]
    exact trim_groupLeft4 _ hns
  · rw [htrue, hfalse, trim_groupLeft4 _ hns]
    exact filter_joinSp_chunks4 _ hns
